import Mathlib

/-!
Verification of the AI Project Planner (Brejesh-5784/chat).

Part 1 (`Gantt`) is a shallow embedding of the plan-consumption layer in
`new-project/frontend/src/components/GanttChart.jsx`: the task-status toggle,
the overall-progress / milestone computation, and the per-member grouping.
JavaScript floating-point arithmetic on the progress percentages is modelled
exactly by rational numbers; the `NaN` produced by the guardless `0/0`
division on an empty task list is modelled by `Option.none` (every comparison
against `NaN` is false, matching `progressGE`).

Part 2 (`Engine`) models the plan synthesis and scheduling engine.  The
backend module that implements it (`new-project/backend/main.py`, the FastAPI
service with the fallback generator, dependency resolution, date scheduling
and assignment balancing) is not present in the repository snapshot under
verification, so those definitions are modelled from the specification's
component contracts (see the doc comment on each).
-/

namespace Gantt

/-- A task as consumed by `GanttChart.jsx` (snake_case JSON fields of the
backend plan payload).  `status` is the raw status string; the data model
restricts it to `"pending"` or `"completed"`.  Dates are the ISO date strings
of the payload, treated opaquely by the toggle operation. -/
structure Task where
  id : Nat
  name : String
  description : String
  assignee : String
  priority : String
  status : String
  start_date : String
  end_date : String
  duration_days : Nat
  deriving DecidableEq, Repr

/-- `toggleTaskStatus` from `GanttChart.jsx` (lines 45-53): map over the task
list, and for the task whose `id` matches, flip `status` between
`"completed"` and `"pending"` (anything other than `"completed"` becomes
`"completed"`); all other fields are spread unchanged. -/
def toggleTaskStatus (taskId : Nat) (tasks : List Task) : List Task :=
  tasks.map fun task =>
    if task.id = taskId then
      { task with status := if task.status = "completed" then "pending" else "completed" }
    else task

/-- Applying a whole sequence of toggle clicks, left to right. -/
def applyToggles (ids : List Nat) (tasks : List Task) : List Task :=
  ids.foldl (fun acc i => toggleTaskStatus i acc) tasks

/-- The date-bearing projection of a task list (start and end dates, and the
duration, of every task in order). -/
def datesOf (tasks : List Task) : List (String × String × Nat) :=
  tasks.map fun t => (t.start_date, t.end_date, t.duration_days)

/-- All statuses are the data model's two values. -/
def StatusWF (tasks : List Task) : Prop :=
  ∀ t ∈ tasks, t.status = "completed" ∨ t.status = "pending"

/-- `completedTasks` (line 55): number of tasks whose status is
`"completed"`. -/
def completedCount (tasks : List Task) : Nat :=
  (tasks.filter (fun t => t.status = "completed")).length

/-- JavaScript `Math.round` on a finite value: round half toward
positive infinity. -/
def jsRound (q : ℚ) : ℤ := ⌊q + 1/2⌋

/-- `overallProgress` (line 56): `Math.round((completedTasks / tasks.length) * 100)`.
When `tasks.length = 0` the JavaScript division is `0/0 = NaN` and
`Math.round(NaN) = NaN`; that value is modelled as `none`. -/
def overallProgress (tasks : List Task) : Option ℤ :=
  if tasks.length = 0 then none
  else some (jsRound ((completedCount tasks : ℚ) / (tasks.length : ℚ) * 100))

/-- The comparison `overallProgress >= p` as JavaScript evaluates it:
false whenever `overallProgress` is `NaN`. -/
def progressGE (tasks : List Task) (p : ℤ) : Bool :=
  match overallProgress tasks with
  | none => false
  | some q => decide (p ≤ q)

/-- One entry of the `milestones` array (lines 58-64). -/
structure Milestone where
  name : String
  percentage : ℤ
  completed : Bool
  deriving DecidableEq, Repr

/-- The `milestones` array (lines 58-64): fixed 0/25/50/75/100 markers, the
0% marker hard-coded `true`, the rest compared against `overallProgress`. -/
def milestones (tasks : List Task) : List Milestone :=
  [ ⟨"Project Start", 0, true⟩,
    ⟨"Planning Phase", 25, progressGE tasks 25⟩,
    ⟨"Development Phase", 50, progressGE tasks 50⟩,
    ⟨"Testing Phase", 75, progressGE tasks 75⟩,
    ⟨"Project Complete", 100, progressGE tasks 100⟩ ]

/-- The key set of `tasksByMember` (lines 66-72): assignees in order of first
appearance, as JavaScript object-key insertion builds them. -/
def membersOf (tasks : List Task) : List String :=
  tasks.foldl (fun acc t => if t.assignee ∈ acc then acc else acc ++ [t.assignee]) []

/-- The group `tasksByMember[m]` (lines 66-72): the tasks pushed under key
`m`, in list order. -/
def tasksByMember (tasks : List Task) (m : String) : List Task :=
  tasks.filter (fun t => t.assignee = m)

/-- One card of ``teamProgress`` (lines 74-81). -/
structure MemberProgress where
  member : String
  tasks : List Task
  completed : Nat
  total : Nat
  progress : ℤ
  deriving DecidableEq, Repr

/-- `teamProgress` (lines 74-81): one entry per member of `tasksByMember`,
with that member's completed count, total count and rounded percentage.
Every group is non-empty, so the division here is never `0/0`. -/
def teamProgress (tasks : List Task) : List MemberProgress :=
  (membersOf tasks).map fun member =>
    let memberTasks := tasksByMember tasks member
    let completed := completedCount memberTasks
    let total := memberTasks.length
    ⟨member, memberTasks, completed, total,
      jsRound ((completed : ℚ) / (total : ℚ) * 100)⟩

/-- All the fields of a single task that the toggle must preserve: everything
except `status`, and also `status` itself when the id does not match. -/
def FramePreserved (taskId : Nat) (t t' : Task) : Prop :=
  t'.id = t.id ∧ t'.name = t.name ∧ t'.description = t.description ∧
  t'.assignee = t.assignee ∧ t'.priority = t.priority ∧
  t'.start_date = t.start_date ∧ t'.end_date = t.end_date ∧
  t'.duration_days = t.duration_days ∧ (t.id ≠ taskId → t' = t)

/-- A fixed sample task used to instantiate the theorems. -/
def sampleTask (i : Nat) (assignee st : String) : Task :=
  ⟨i, "Task " ++ toString i, "", assignee, "medium", st, "2024-01-01", "2024-01-02", 1⟩

/-- A fixed two-task sample list used to instantiate the theorems. -/
def sampleList : List Task :=
  [sampleTask 1 "Alice" "pending", sampleTask 2 "Bob" "completed"]

/-- Same length and statuses as `sampleList` but different names, assignees
and dates. -/
def sampleListB : List Task :=
  [⟨1, "Other", "d", "Carol", "high", "pending", "2025-06-01", "2025-06-03", 2⟩,
   ⟨2, "Another", "d", "Dave", "low", "completed", "2025-06-03", "2025-06-04", 1⟩]

/-- 53 tasks of which exactly 13 are completed: the rounded percentage is
`Math.round(1300/53) = Math.round(24.52...) = 25`, although the completed
proportion is strictly below 25%. -/
def list53 : List Task :=
  List.replicate 13 (sampleTask 1 "Alice" "completed") ++
    List.replicate 40 (sampleTask 2 "Bob" "pending")

/-- Unfolding of the toggle on a cons cell. -/
lemma toggle_cons (taskId : Nat) (t : Task) (ts : List Task) :
    toggleTaskStatus taskId (t :: ts) =
      (if t.id = taskId then
        { t with status := if t.status = "completed" then "pending" else "completed" }
      else t) :: toggleTaskStatus taskId ts := by
  simp only [toggleTaskStatus, List.map_cons]

/-- The toggle never touches a task's dates or duration. -/
lemma datesOf_toggle (taskId : Nat) (tasks : List Task) :
    datesOf (toggleTaskStatus taskId tasks) = datesOf tasks := by
  induction tasks with
  | nil => rfl
  | cons t ts ih =>
    rw [toggle_cons]
    simp only [datesOf, List.map_cons] at ih ⊢
    rw [ih]
    split <;> rfl

/-- No sequence of toggle clicks ever changes any task's dates or duration. -/
lemma datesOf_applyToggles (ids : List Nat) (tasks : List Task) :
    datesOf (applyToggles ids tasks) = datesOf tasks := by
  induction ids generalizing tasks with
  | nil => rfl
  | cons i rest ih =>
    simp only [applyToggles, List.foldl_cons] at ih ⊢
    rw [ih, datesOf_toggle]

/-- With two-valued statuses, toggling the same id twice is the identity. -/
lemma toggle_toggle (x : Nat) (tasks : List Task) (hwf : StatusWF tasks) :
    toggleTaskStatus x (toggleTaskStatus x tasks) = tasks := by
  induction tasks with
  | nil => rfl
  | cons t ts ih =>
    have hts : StatusWF ts := fun u hu => hwf u (List.mem_cons_of_mem _ hu)
    have ht := hwf t (List.mem_cons_self _ _)
    rw [toggle_cons, toggle_cons, ih hts]
    obtain ⟨i0, nm, ds, asg, pr, st, sd, ed, dd⟩ := t
    by_cases hid : i0 = x
    · rcases ht with h | h <;> simp_all
    · simp_all

lemma framePreserved_toggle (taskId : Nat) (tasks : List Task) :
    List.Forall₂ (FramePreserved taskId) tasks (toggleTaskStatus taskId tasks) := by
  induction tasks with
  | nil => exact List.Forall₂.nil
  | cons t ts ih =>
    rw [toggle_cons]
    refine List.Forall₂.cons ?_ ih
    by_cases hid : t.id = taskId
    · simp [FramePreserved, hid]
    · simp [FramePreserved, hid]

end Gantt

namespace Engine

/-- Modelled from the spec: the backend plan-synthesis module
(`new-project/backend/main.py`) is not present in the repository snapshot, so
the raw AI-sourced task record is taken from §3/§4.1 of the specification:
every field of the external payload may be missing or malformed; absent or
unusable fields are represented by `none`. -/
structure RawTask where
  id : Option Nat
  name : Option String
  durationDays : Option Int
  dependsOn : Option (List Nat)
  assignee : Option String
  priority : Option String
  deriving DecidableEq, Repr

/-- Modelled from the spec: a well-typed engine `Task` after normalization
(§3), before date assignment. -/
structure Task where
  id : Nat
  name : String
  durationDays : Nat
  dependsOn : List Nat
  assignee : String
  priority : String
  deriving DecidableEq, Repr

/-- Modelled from the spec (§4.1): the default duration policy constant. -/
def defaultDuration : Nat := 2

/-- Modelled from the spec (§4.1 Task Normalizer; backend source absent):
each item keeps its id or receives a sequence id; a missing/blank name
becomes `"Untitled Task"`; a missing or non-positive duration is coerced to
the default; an unrecognized priority is coerced to `"medium"`;
`dependsOn` entries referencing unknown ids are dropped. -/
def normalize (raw : List RawTask) : List Task :=
  let withIds : List Task := raw.enum.map fun p =>
    { id := p.2.id.getD (p.1 + 1),
      name := match p.2.name with
        | some n => if n = "" then "Untitled Task" else n
        | none => "Untitled Task",
      durationDays := match p.2.durationDays with
        | some d => if d ≤ 0 then defaultDuration else d.toNat
        | none => defaultDuration,
      dependsOn := p.2.dependsOn.getD [],
      assignee := p.2.assignee.getD "",
      priority := match p.2.priority with
        | some q => if q = "high" ∨ q = "medium" ∨ q = "low" then q else "medium"
        | none => "medium" }
  let ids := withIds.map fun t => t.id
  withIds.map fun t => { t with dependsOn := t.dependsOn.filter fun d => d ∈ ids }

/-- Modelled from the spec (§4.5): the fixed catalog of generic phases. -/
def phaseNames : List String :=
  ["Planning", "Design", "Development", "Testing", "Deployment"]

/-- Modelled from the spec (§4.5 Fallback Plan Generator; backend source
absent): a simple chain of the five template phases, each depending on the
previous one, with durations scaled to the requested total (default 30
days). -/
def fallbackTasks (totalDays : Nat) : List Task :=
  (List.range 5).map fun i =>
    { id := i + 1,
      name := phaseNames.getD i "Phase",
      durationDays := max 1 (totalDays / 5),
      dependsOn := if i = 0 then [] else [i],
      assignee := "",
      priority := "medium" }

/-- Modelled from the spec (§4.2 Dependency Resolver; backend source absent):
produce a deterministic linear order in which every task appears after all of
its (retained) dependencies.  Repeatedly emit the first task, in input order,
all of whose dependencies are already emitted (stable tie-break); when no
task is emittable the remaining tasks close a cycle, so the first remaining
task's unmet dependency edges — the back-edges completing the cycle — are
dropped and the task is emitted (tasks are kept, edges severed), and the
walk continues.  Fuel equals the number of pending tasks. -/
def resolveAux : Nat → List Nat → List Task → List Task
  | 0, _, _ => []
  | _, _, [] => []
  | fuel + 1, done, t :: rest =>
    match (t :: rest).find? (fun u => u.dependsOn.all fun d => d ∈ done) with
    | some u => u :: resolveAux fuel (u.id :: done) ((t :: rest).erase u)
    | none =>
      { t with dependsOn := t.dependsOn.filter fun d => d ∈ done } ::
        resolveAux fuel (t.id :: done) rest

/-- Modelled from the spec (§4.2): run the resolver on the whole list. -/
def resolve (tasks : List Task) : List Task :=
  resolveAux tasks.length [] tasks

/-- Modelled from the spec (§3/§4.3): a task after date assignment; dates are
absolute calendar days represented as integer day numbers. -/
structure SchedTask where
  id : Nat
  name : String
  durationDays : Nat
  dependsOn : List Nat
  assignee : String
  priority : String
  startDate : Int
  endDate : Int
  deriving DecidableEq, Repr

/-- Modelled from the spec (§4.3): the end date of an already-scheduled
prerequisite; an id not among the scheduled tasks contributes the project
start date. -/
def depEnd (projectStart : Int) (sch : List SchedTask) (d : Nat) : Int :=
  match sch.find? fun x => x.id = d with
  | some x => x.endDate
  | none => projectStart

/-- Modelled from the spec (§4.3): a task with no dependencies starts at the
project start date; a task with dependencies starts at the maximum end date
among its prerequisites. -/
def schedStart (projectStart : Int) (sch : List SchedTask) (t : Task) : Int :=
  (t.dependsOn.map (depEnd projectStart sch)).foldl max projectStart

/-- Modelled from the spec (§4.3 Date Scheduler; backend source absent): a
single forward pass over the topologically ordered tasks, assigning
`startDate` from the prerequisites already scheduled and
`endDate = startDate + durationDays` (non-inclusive end). -/
def scheduleAux (projectStart : Int) : List SchedTask → List Task → List SchedTask
  | _, [] => []
  | sch, t :: rest =>
    let st := schedStart projectStart sch t
    let x : SchedTask :=
      { id := t.id, name := t.name, durationDays := t.durationDays,
        dependsOn := t.dependsOn, assignee := t.assignee, priority := t.priority,
        startDate := st, endDate := st + (t.durationDays : Int) }
    x :: scheduleAux projectStart (sch ++ [x]) rest

/-- Modelled from the spec (§4.3): schedule all tasks from the project
start date. -/
def schedule (projectStart : Int) (tasks : List Task) : List SchedTask :=
  scheduleAux projectStart [] tasks

/-- Modelled from the spec (§4.4): the currently least-loaded roster member,
ties broken by roster order. -/
def pickLeast (roster : List String) (assigned : List String) : String :=
  match roster with
  | [] => "Team Member 1"
  | r0 :: _ =>
    roster.foldl
      (fun best m => if assigned.count m < assigned.count best then m else best) r0

/-- Modelled from the spec (§4.4): when no roster is known, synthesize a
minimal roster of generic names sized to the number of distinct assignees
implied by the data, with a floor of one member. -/
def synthRoster (tasks : List SchedTask) : List String :=
  let k := max 1 (((tasks.map fun t => t.assignee).filter fun a => ¬ a = "").eraseDups.length)
  (List.range k).map fun i => "Team Member " ++ toString (i + 1)

/-- Modelled from the spec (§4.4 Assignment Balancer; backend source absent):
keep an AI-suggested assignee that is in the roster; otherwise assign the
least-loaded roster member; never leave a task unassigned. -/
def balanceAux (roster : List String) : List String → List SchedTask → List SchedTask
  | _, [] => []
  | assigned, t :: rest =>
    let a := if t.assignee ∈ roster then t.assignee else pickLeast roster assigned
    { t with assignee := a } :: balanceAux roster (assigned ++ [a]) rest

/-- Modelled from the spec (§4.4): balance against the provided roster, or a
synthesized one when none is known. -/
def balance (roster0 : List String) (tasks : List SchedTask) : List SchedTask :=
  let roster := if roster0.isEmpty then synthRoster tasks else roster0
  balanceAux roster [] tasks

/-- Modelled from the spec (§3): the final `Plan` value. -/
structure Plan where
  projectName : String
  startDate : Int
  tasks : List SchedTask
  teamMembers : List String
  totalDurationDays : Int
  endDate : Int
  deriving DecidableEq, Repr

/-- Modelled from the spec (§4.3/§3): overall span — maximum end date across
all tasks minus the project start date. -/
def planSpan (projectStart : Int) (tasks : List SchedTask) : Int :=
  (tasks.map fun x => x.endDate).foldl max projectStart - projectStart

/-- Modelled from the spec (§4.6 Plan Assembler; backend source absent):
compose the plan, deriving `teamMembers` from the final assignees and the
span/end date from the scheduled dates. -/
def assemble (name : String) (projectStart : Int) (tasks : List SchedTask) : Plan :=
  { projectName := name,
    startDate := projectStart,
    tasks := tasks,
    teamMembers := (tasks.map fun x => x.assignee).dedup,
    totalDurationDays := planSpan projectStart tasks,
    endDate := projectStart + planSpan projectStart tasks }

/-- Modelled from the spec (§6): one plan-generation request.  `rawTasks =
none` stands for a failed, timed-out or structurally unusable upstream AI
response (`InvalidInput` / `UpstreamUnavailable`). -/
structure PlanRequest where
  rawTasks : Option (List RawTask)
  projectName : String
  startDate : Int
  roster : List String
  requestedDuration : Option Nat
  deriving DecidableEq, Repr

/-- Modelled from the spec (§2/§4.5): the tasks entering the resolver — the
normalized raw tasks, or the fallback template when the upstream response is
absent or normalization yields zero usable tasks. -/
def baseTasks (req : PlanRequest) : List Task :=
  let norm := match req.rawTasks with
    | some raw => normalize raw
    | none => []
  if norm.isEmpty then fallbackTasks (req.requestedDuration.getD 30) else norm

/-- Modelled from the spec (§2 control flow; backend source absent): raw AI
output → Task Normalizer → (Fallback Plan Generator when zero usable tasks)
→ Dependency Resolver → Date Scheduler → Assignment Balancer → Plan
Assembler.  A total function: every request produces a `Plan`. -/
def generatePlan (req : PlanRequest) : Plan :=
  assemble req.projectName req.startDate
    (balance req.roster (schedule req.startDate (resolve (baseTasks req))))

/-- The emitted order is topological relative to the ids in `done`: every
task's retained dependencies refer to ids already emitted before it. -/
def topoFrom (done : List Nat) : List Task → Prop
  | [] => True
  | t :: rest => (∀ d ∈ t.dependsOn, d ∈ done) ∧ topoFrom (t.id :: done) rest

/-- `v` is the maximum of the list `l`. -/
def IsMaxOf (v : Int) (l : List Int) : Prop :=
  v ∈ l ∧ ∀ y ∈ l, y ≤ v

/-- The schedule-consistency predicate of §4.3/§8, relative to the tasks
scheduled so far: every task has `endDate = startDate + durationDays`, a
task without dependencies starts at the project start date, and a task with
dependencies starts at the maximum end date among its prerequisites. -/
def schedOK (s : Int) (done : List SchedTask) : List SchedTask → Prop
  | [] => True
  | x :: rest =>
      x.endDate = x.startDate + (x.durationDays : Int) ∧
      (x.dependsOn = [] → x.startDate = s) ∧
      (x.dependsOn ≠ [] → IsMaxOf x.startDate (x.dependsOn.map (depEnd s done))) ∧
      schedOK s (done ++ [x]) rest

/-- The identity-bearing projection of an engine task: everything except the
dependency edges (which cycle resolution may sever). -/
def core (t : Task) : Nat × String × Nat × String × String :=
  (t.id, t.name, t.durationDays, t.assignee, t.priority)

/-- The three-task dependency cycle A→B→C→A of Scenario 3: B depends on A,
C depends on B, and A depends back on C. -/
def cycleTasks : List Task :=
  [⟨1, "A", 1, [3], "", "medium"⟩,
   ⟨2, "B", 1, [1], "", "medium"⟩,
   ⟨3, "C", 1, [2], "", "medium"⟩]

/-- Scenario 1: Design (5 days, no dependencies) and Build (10 days,
depending on Design). -/
def designBuild : List Task :=
  [⟨1, "Design", 5, [], "", "medium"⟩,
   ⟨2, "Build", 10, [1], "", "medium"⟩]

/-- A single one-day task, for the non-inclusive end semantics check. -/
def oneDayTask : List Task :=
  [⟨1, "T", 1, [], "", "medium"⟩]

/-- A degraded-path request: the upstream AI call failed (`rawTasks = none`),
no roster, no requested duration. -/
def degradedRequest : PlanRequest :=
  ⟨none, "Project", 0, [], none⟩

/-- The first task of the plan generated for `degradedRequest`: the fallback
"Planning" phase, six days from day 0, assigned to the synthesized member. -/
def fallbackFirstTask : SchedTask :=
  ⟨1, "Planning", 6, [], "Team Member 1", "medium", 0, 6⟩

end Engine

namespace Gantt

/-- **C3.** Toggling one task's completion status by id changes at most that
task's `status` field: the lists line up pointwise, with every non-status
field (id, name, description, assignee, priority, start date, end date,
duration) preserved at every position, every task whose id differs left
exactly unchanged, and the dates of every task invariant under any sequence
of toggles. -/
theorem c3_toggle_frame (tasks : List Task) (taskId : Nat) :
    List.Forall₂ (FramePreserved taskId) tasks (toggleTaskStatus taskId tasks) ∧
    ∀ ids : List Nat, datesOf (applyToggles ids tasks) = datesOf tasks :=
  ⟨framePreserved_toggle taskId tasks, fun ids => datesOf_applyToggles ids tasks⟩

theorem c3_toggle_frame_witness :
    List.Forall₂ (FramePreserved 1) sampleList (toggleTaskStatus 1 sampleList) ∧
    datesOf (applyToggles [1, 1, 2] sampleList) = datesOf sampleList :=
  ⟨(c3_toggle_frame sampleList 1).1, (c3_toggle_frame sampleList 1).2 [1, 1, 2]⟩

/-- **C9.** Toggling an id that occurs nowhere in the task list is a silent
no-op: the list is returned exactly unchanged. -/
theorem c9_toggle_absent_id_noop (tasks : List Task) (taskId : Nat)
    (habs : taskId ∉ tasks.map (·.id)) :
    toggleTaskStatus taskId tasks = tasks := by
  induction tasks with
  | nil => rfl
  | cons t ts ih =>
    simp only [List.map_cons, List.mem_cons, not_or] at habs
    rw [toggle_cons, ih habs.2, if_neg (fun h => habs.1 h.symm)]

theorem c9_toggle_absent_id_noop_witness :
    toggleTaskStatus 7 sampleList = sampleList :=
  c9_toggle_absent_id_noop sampleList 7 (by decide)

/-- **C6.** With the data model's two-valued statuses, applying the toggle to
one id an even number of times restores the whole task list (in particular
every task's status), and no task's dates change at any point in the
sequence. -/
theorem c6_toggle_involution (tasks : List Task) (x : Nat) (n : Nat)
    (hwf : StatusWF tasks) (_hx : x ∈ tasks.map (·.id)) :
    applyToggles (List.replicate (2 * n) x) tasks = tasks ∧
    ∀ k : Nat, datesOf (applyToggles (List.replicate k x) tasks) = datesOf tasks := by
  refine ⟨?_, fun k => datesOf_applyToggles _ tasks⟩
  induction n with
  | zero => rfl
  | succ m ih =>
    have h2 : 2 * (m + 1) = 2 * m + 1 + 1 := by ring
    rw [h2, List.replicate_succ, List.replicate_succ]
    simp only [applyToggles, List.foldl_cons] at ih ⊢
    rw [toggle_toggle x tasks hwf]
    exact ih

theorem c6_toggle_involution_witness :
    applyToggles (List.replicate (2 * 2) 1) sampleList = sampleList ∧
    datesOf (applyToggles (List.replicate 3 1) sampleList) = datesOf sampleList := by
  have h := c6_toggle_involution sampleList 1 2 (by unfold StatusWF; decide) (by decide)
  exact ⟨h.1, h.2 3⟩

/-- **C5 counterexample.** The toggle is a pure flip, not idempotent:
toggling the same present id twice does not leave the task's status equal to
the result of a single toggle — on a one-task pending list, a single toggle
yields status `"completed"` while a double toggle yields `"pending"`. -/
theorem c5_counterexample_not_idempotent :
    toggleTaskStatus 1 (toggleTaskStatus 1 [sampleTask 1 "Alice" "pending"]) ≠
      toggleTaskStatus 1 [sampleTask 1 "Alice" "pending"] ∧
    (toggleTaskStatus 1 [sampleTask 1 "Alice" "pending"]).map (·.status) =
      ["completed"] ∧
    (toggleTaskStatus 1
        (toggleTaskStatus 1 [sampleTask 1 "Alice" "pending"])).map (·.status) =
      ["pending"] := by
  refine ⟨?_, by decide, by decide⟩
  decide

/-- **C5 amended.** Repeated toggles of the same task are not idempotent: the
toggle is an involution, so a second toggle of the same id undoes the first
(restoring every status, under the data model's two-valued statuses), and
only derived aggregates are recomputed — no task's dates or durations change
under any sequence of toggles (the scheduler is never re-invoked). -/
theorem c5_amended_toggle_undoes (tasks : List Task) (x : Nat)
    (hwf : StatusWF tasks) :
    toggleTaskStatus x (toggleTaskStatus x tasks) = tasks ∧
    ∀ ids : List Nat, datesOf (applyToggles ids tasks) = datesOf tasks :=
  ⟨toggle_toggle x tasks hwf, fun ids => datesOf_applyToggles ids tasks⟩

theorem c5_amended_toggle_undoes_witness :
    toggleTaskStatus 1 (toggleTaskStatus 1 sampleList) = sampleList ∧
    datesOf (applyToggles [1, 2, 1] sampleList) = datesOf sampleList := by
  have h := c5_amended_toggle_undoes sampleList 1 (by unfold StatusWF; decide)
  exact ⟨h.1, h.2 [1, 2, 1]⟩

lemma milestones_length (tasks : List Task) : (milestones tasks).length = 5 := rfl

/-- The completed count is a function of the statuses alone. -/
lemma completedCount_eq_statuses (tasks : List Task) :
    completedCount tasks =
      ((tasks.map fun t => t.status).filter fun s => s = "completed").length := by
  induction tasks with
  | nil => rfl
  | cons t ts ih =>
    unfold completedCount at ih ⊢
    simp only [List.map_cons, List.filter_cons]
    by_cases h : t.status = "completed"
    · simp [h, ih]
    · simp [h, ih]

/-- The comparison `Math.round((completed / total) * 100) >= p` on a
non-empty task list, as an exact integer inequality: the rounded percentage
reaches `p` exactly when `200 * completed ≥ (2p - 1) * total`. -/
lemma progressGE_iff (tasks : List Task) (h : tasks ≠ []) (p : ℤ) :
    progressGE tasks p = true ↔
      (2 * p - 1) * (tasks.length : ℤ) ≤ 200 * (completedCount tasks : ℤ) := by
  have hn0 : tasks.length ≠ 0 := fun hlen => h (List.length_eq_zero.mp hlen)
  have hnq : (0 : ℚ) < (tasks.length : ℚ) := by
    exact_mod_cast Nat.pos_of_ne_zero hn0
  unfold progressGE overallProgress jsRound
  rw [if_neg hn0]
  simp only [decide_eq_true_eq]
  rw [Int.le_floor, div_mul_eq_mul_div, ← sub_le_iff_le_add, le_div_iff₀ hnq]
  constructor
  · intro hh
    have hq : ((2 * p - 1 : ℤ) : ℚ) * ((tasks.length : ℕ) : ℚ) ≤
        ((200 : ℤ) : ℚ) * ((completedCount tasks : ℕ) : ℚ) := by
      push_cast
      nlinarith [hh]
    exact_mod_cast hq
  · intro hh
    have hq : ((2 * p - 1 : ℤ) : ℚ) * ((tasks.length : ℕ) : ℚ) ≤
        ((200 : ℤ) : ℚ) * ((completedCount tasks : ℕ) : ℚ) := by
      exact_mod_cast hh
    push_cast at hq
    nlinarith [hq]

/-- **C8.** On an empty task list the overall progress is the JavaScript
`NaN` (the guardless `0/0` division, modelled as `none`), every
`overallProgress >= p` comparison is false, and only the constantly-true
"Project Start" (0%) milestone is marked completed. -/
theorem c8_empty_tasks_progress_nan :
    overallProgress ([] : List Task) = none ∧
    milestones ([] : List Task) =
      [⟨"Project Start", 0, true⟩, ⟨"Planning Phase", 25, false⟩,
       ⟨"Development Phase", 50, false⟩, ⟨"Testing Phase", 75, false⟩,
       ⟨"Project Complete", 100, false⟩] :=
  ⟨rfl, rfl⟩

/-- **C4 counterexample.** A milestone can be marked reached although the
proportion of completed tasks is strictly below its threshold: with 13 of 53
tasks completed, the 25% milestone is marked completed even though
`100 * 13 < 25 * 53` (the proportion is about 24.53%), because the code
compares the milestone threshold against the rounded percentage. -/
theorem c4_counterexample_rounding :
    ((milestones list53).get ⟨1, by rw [milestones_length]; decide⟩).completed = true ∧
    100 * completedCount list53 < 25 * list53.length := by
  refine ⟨?_, by decide⟩
  show progressGE list53 25 = true
  rw [progressGE_iff list53 (by decide) 25]
  decide

/-- **C4 amended.** The milestones are a pure function of the current task
statuses (two task lists with identical status sequences have identical
milestones), and each milestone is marked reached exactly when the *rounded*
overall percentage `Math.round(100 * completed / total)` meets or exceeds its
threshold — equivalently, on a non-empty task list, exactly when
`200 * completed ≥ (2 * threshold - 1) * total`.  This can mark a milestone
reached when the exact completed proportion is slightly below the threshold;
the 0% milestone is always marked reached. -/
theorem c4_amended_milestones (tasks tasksB : List Task) :
    ((tasks.map fun t => t.status) = (tasksB.map fun t => t.status) →
      milestones tasks = milestones tasksB) ∧
    (tasks ≠ [] → ∀ m ∈ milestones tasks,
      (m.completed = true ↔
        (2 * m.percentage - 1) * (tasks.length : ℤ) ≤
          200 * (completedCount tasks : ℤ))) := by
  constructor
  · intro h
    have hc : completedCount tasks = completedCount tasksB := by
      rw [completedCount_eq_statuses, completedCount_eq_statuses, h]
    have hl : tasks.length = tasksB.length := by
      have h2 := congrArg List.length h
      simpa using h2
    simp [milestones, progressGE, overallProgress, hc, hl]
  · intro hne m hm
    have hlen : (0 : ℤ) ≤ (tasks.length : ℤ) := Int.ofNat_nonneg _
    have hcc : (0 : ℤ) ≤ (completedCount tasks : ℤ) := Int.ofNat_nonneg _
    simp only [milestones, List.mem_cons, List.not_mem_nil, or_false] at hm
    rcases hm with rfl | rfl | rfl | rfl | rfl
    · simp only [true_iff]
      nlinarith
    · exact progressGE_iff tasks hne 25
    · exact progressGE_iff tasks hne 50
    · exact progressGE_iff tasks hne 75
    · exact progressGE_iff tasks hne 100

/-- Membership in the folded key list of `tasksByMember`. -/
lemma mem_membersOf_aux (tasks : List Task) :
    ∀ (acc : List String) (x : String),
      (x ∈ tasks.foldl
          (fun acc t => if t.assignee ∈ acc then acc else acc ++ [t.assignee]) acc) ↔
        (x ∈ acc ∨ ∃ t ∈ tasks, t.assignee = x) := by
  induction tasks with
  | nil => simp
  | cons t ts ih =>
    intro acc x
    simp only [List.foldl_cons]
    by_cases h : t.assignee ∈ acc
    · rw [if_pos h, ih]
      constructor
      · rintro (hx | ⟨u, hu, hux⟩)
        · exact Or.inl hx
        · exact Or.inr ⟨u, List.mem_cons_of_mem _ hu, hux⟩
      · rintro (hx | ⟨u, hu, hux⟩)
        · exact Or.inl hx
        · rcases List.mem_cons.mp hu with rfl | hu'
          · exact Or.inl (hux ▸ h)
          · exact Or.inr ⟨u, hu', hux⟩
    · rw [if_neg h, ih]
      constructor
      · rintro (hx | ⟨u, hu, hux⟩)
        · rcases List.mem_append.mp hx with hx' | hx'
          · exact Or.inl hx'
          · exact Or.inr ⟨t, List.mem_cons_self _ _, (List.mem_singleton.mp hx').symm⟩
        · exact Or.inr ⟨u, List.mem_cons_of_mem _ hu, hux⟩
      · rintro (hx | ⟨u, hu, hux⟩)
        · exact Or.inl (List.mem_append.mpr (Or.inl hx))
        · rcases List.mem_cons.mp hu with rfl | hu'
          · exact Or.inl (List.mem_append.mpr (Or.inr (List.mem_singleton.mpr hux.symm)))
          · exact Or.inr ⟨u, hu', hux⟩

/-- The member list is exactly the set of assignees occurring in the tasks. -/
lemma mem_membersOf (tasks : List Task) (x : String) :
    x ∈ membersOf tasks ↔ ∃ t ∈ tasks, t.assignee = x := by
  unfold membersOf
  rw [mem_membersOf_aux]
  simp

lemma nodup_membersOf_aux (tasks : List Task) :
    ∀ acc : List String, acc.Nodup →
      (tasks.foldl
        (fun acc t => if t.assignee ∈ acc then acc else acc ++ [t.assignee]) acc).Nodup := by
  induction tasks with
  | nil => exact fun acc h => h
  | cons t ts ih =>
    intro acc hacc
    simp only [List.foldl_cons]
    by_cases h : t.assignee ∈ acc
    · rw [if_pos h]
      exact ih acc hacc
    · rw [if_neg h]
      refine ih _ ?_
      rw [List.nodup_append]
      refine ⟨hacc, List.nodup_singleton _, ?_⟩
      intro x hx hx'
      rw [List.mem_singleton] at hx'
      exact h (hx' ▸ hx)

/-- The member list has no duplicate keys. -/
lemma nodup_membersOf (tasks : List Task) : (membersOf tasks).Nodup :=
  nodup_membersOf_aux tasks [] List.nodup_nil

/-- A filter and its complement split the length of a list. -/
lemma length_filter_split {α : Type} (p : α → Prop) [DecidablePred p]
    (l : List α) :
    (l.filter fun a => p a).length + (l.filter fun a => ¬ p a).length = l.length := by
  induction l with
  | nil => rfl
  | cons a l ih =>
    by_cases h : p a <;> simp [List.filter_cons, h, decide_not] at ih ⊢ <;> omega

/-- Filtering by a key different from `m` ignores the removal of the tasks
assigned to `m`. -/
lemma filter_assignee_of_ne {m k : String} (hne : k ≠ m) (tasks : List Task) :
    ((tasks.filter fun t => ¬ t.assignee = m).filter fun t => t.assignee = k) =
      tasks.filter fun t => t.assignee = k := by
  induction tasks with
  | nil => rfl
  | cons t ts ih =>
    by_cases h1 : t.assignee = m
    · have h2 : ¬ t.assignee = k := fun hk => hne (by rw [← hk, h1])
      have e1 : ((t :: ts).filter fun t => ¬ t.assignee = m) =
          ts.filter fun t => ¬ t.assignee = m := by
        simp [List.filter_cons, h1]
      rw [e1, ih]
      simp [List.filter_cons, h2]
    · have e1 : ((t :: ts).filter fun t => ¬ t.assignee = m) =
          t :: (ts.filter fun t => ¬ t.assignee = m) := by
        simp [List.filter_cons, h1]
      rw [e1]
      simp only [List.filter_filter, decide_not] at ih
      by_cases h2 : t.assignee = k
      · simp [List.filter_cons, h2, ih]
      · simp [List.filter_cons, h2, ih]

/-- Summing group sizes over a duplicate-free list of members that covers
every assignee recovers the total number of tasks. -/
lemma sum_group_lengths :
    ∀ (members : List String) (tasks : List Task),
      members.Nodup → (∀ t ∈ tasks, t.assignee ∈ members) →
      (members.map fun m => (tasks.filter fun t => t.assignee = m).length).sum =
        tasks.length := by
  intro members
  induction members with
  | nil =>
    intro tasks _ hcov
    cases tasks with
    | nil => rfl
    | cons t ts => exact absurd (hcov t (List.mem_cons_self _ _)) (List.not_mem_nil _)
  | cons m ms ih =>
    intro tasks hnd hcov
    obtain ⟨hm, hnd'⟩ := List.nodup_cons.mp hnd
    have hcov' : ∀ t ∈ tasks.filter fun t => ¬ t.assignee = m, t.assignee ∈ ms := by
      intro t ht
      obtain ⟨ht1, ht2⟩ := List.mem_filter.mp ht
      have ht2' : ¬ t.assignee = m := by simpa using ht2
      rcases List.mem_cons.mp (hcov t ht1) with h | h
      · exact absurd h ht2'
      · exact h
    have hih := ih (tasks.filter fun t => ¬ t.assignee = m) hnd' hcov'
    have hmapeq : (ms.map fun k => (tasks.filter fun t => t.assignee = k).length) =
        ms.map fun k =>
          ((tasks.filter fun t => ¬ t.assignee = m).filter
            fun t => t.assignee = k).length := by
      refine List.map_congr_left ?_
      intro k hk
      have hkm : k ≠ m := fun hkm => hm (hkm ▸ hk)
      rw [filter_assignee_of_ne hkm]
    rw [List.map_cons, List.sum_cons, hmapeq, hih]
    have hsplit := length_filter_split (fun t : Task => t.assignee = m) tasks
    omega

theorem c4_amended_milestones_witness :
    milestones sampleList = milestones sampleListB ∧
    (((milestones sampleList).get
        ⟨1, by rw [milestones_length]; decide⟩).completed = true ↔
      (2 * 25 - 1) * (sampleList.length : ℤ) ≤
        200 * (completedCount sampleList : ℤ)) := by
  refine ⟨(c4_amended_milestones sampleList sampleListB).1 (by decide), ?_⟩
  exact (c4_amended_milestones sampleList sampleListB).2 (by decide)
    ((milestones sampleList).get ⟨1, by rw [milestones_length]; decide⟩)
    (List.get_mem _ _ _)

/-- **C10.** The team progress view partitions the task list by assignee:
every task is counted under exactly one member (its assignee), every entry of
the view carries at least one task (namely the group of its member), and the
per-member task counts sum to the total number of tasks. -/
theorem c10_team_partition (tasks : List Task) :
    (∀ t ∈ tasks, ∃! m, m ∈ membersOf tasks ∧ t ∈ tasksByMember tasks m) ∧
    (∀ e ∈ teamProgress tasks, 1 ≤ e.total ∧ e.tasks = tasksByMember tasks e.member) ∧
    ((teamProgress tasks).map fun e => e.total).sum = tasks.length := by
  refine ⟨?_, ?_, ?_⟩
  · intro t ht
    refine ⟨t.assignee,
      ⟨(mem_membersOf tasks t.assignee).mpr ⟨t, ht, rfl⟩,
        List.mem_filter.mpr ⟨ht, by simp⟩⟩, ?_⟩
    rintro m ⟨_, htm⟩
    have h2 := (List.mem_filter.mp htm).2
    exact (by simpa using h2 : t.assignee = m).symm
  · intro e he
    obtain ⟨m, hm, rfl⟩ := List.mem_map.mp he
    refine ⟨?_, rfl⟩
    obtain ⟨t, ht, hta⟩ := (mem_membersOf tasks m).mp hm
    have htm : t ∈ tasksByMember tasks m := List.mem_filter.mpr ⟨ht, by simp [hta]⟩
    have hpos : 0 < (tasksByMember tasks m).length :=
      List.length_pos.mpr (List.ne_nil_of_mem htm)
    exact hpos
  · have hmap : ((teamProgress tasks).map fun e => e.total) =
        (membersOf tasks).map fun m => (tasksByMember tasks m).length := by
      unfold teamProgress
      rw [List.map_map]
      rfl
    rw [hmap]
    exact sum_group_lengths (membersOf tasks) tasks (nodup_membersOf tasks)
      (fun t ht => (mem_membersOf tasks t.assignee).mpr ⟨t, ht, rfl⟩)

theorem c10_team_partition_witness :
    ((teamProgress sampleList).map fun e => e.total).sum = sampleList.length ∧
    (∃! m, m ∈ membersOf sampleList ∧
      sampleTask 1 "Alice" "pending" ∈ tasksByMember sampleList m) :=
  ⟨(c10_team_partition sampleList).2.2,
    (c10_team_partition sampleList).1 (sampleTask 1 "Alice" "pending") (by decide)⟩

end Gantt

namespace Engine

/-- The seed is a lower bound of a left fold with `max`. -/
lemma base_le_foldl_max (l : List Int) : ∀ s : Int, s ≤ l.foldl max s := by
  induction l with
  | nil => exact fun s => le_refl s
  | cons a l ih =>
    intro s
    exact le_trans (le_max_left s a) (ih (max s a))

/-- Every element is a lower bound of a left fold with `max`. -/
lemma le_foldl_max (l : List Int) : ∀ (s y : Int), y ∈ l → y ≤ l.foldl max s := by
  induction l with
  | nil => intro s y hy; exact absurd hy (List.not_mem_nil y)
  | cons a l ih =>
    intro s y hy
    rcases List.mem_cons.mp hy with rfl | hy'
    · exact le_trans (le_max_right s y) (base_le_foldl_max l (max s y))
    · exact ih (max s a) y hy'

/-- A left fold with `max` is the seed or one of the elements. -/
lemma foldl_max_eq_or_mem (l : List Int) :
    ∀ s : Int, l.foldl max s = s ∨ l.foldl max s ∈ l := by
  induction l with
  | nil => exact fun s => Or.inl rfl
  | cons a l ih =>
    intro s
    rcases ih (max s a) with h | h
    · rcases max_choice s a with hm | hm
      · rw [List.foldl_cons, h, hm]
        exact Or.inl rfl
      · rw [List.foldl_cons, h, hm]
        exact Or.inr (List.mem_cons_self _ _)
    · rw [List.foldl_cons]
      exact Or.inr (List.mem_cons_of_mem _ h)

/-- On a non-empty list whose elements dominate the seed, a left fold with
`max` is the maximum of the list. -/
lemma foldl_max_isMax (l : List Int) (s : Int) (hne : l ≠ [])
    (hall : ∀ y ∈ l, s ≤ y) : IsMaxOf (l.foldl max s) l := by
  refine ⟨?_, fun y hy => le_foldl_max l s y hy⟩
  rcases foldl_max_eq_or_mem l s with h | h
  · obtain ⟨y0, hy0⟩ := List.exists_mem_of_ne_nil l hne
    have h1 : s ≤ y0 := hall y0 hy0
    have h2 : y0 ≤ l.foldl max s := le_foldl_max l s y0 hy0
    rw [h] at h2
    have : y0 = s := le_antisymm h2 h1
    rw [h, ← this]
    exact hy0
  · exact h

/-- The resolver never drops or duplicates tasks: given enough fuel its
output has exactly the length of its input. -/
lemma resolveAux_length :
    ∀ (fuel : Nat) (done : List Nat) (pending : List Task),
      pending.length ≤ fuel → (resolveAux fuel done pending).length = pending.length := by
  intro fuel
  induction fuel with
  | zero =>
    intro done pending h
    rw [List.length_eq_zero.mp (Nat.le_zero.mp h)]
    rfl
  | succ n ih =>
    intro done pending h
    cases pending with
    | nil => rfl
    | cons t rest =>
      cases hf : (t :: rest).find? (fun u => u.dependsOn.all fun d => d ∈ done) with
      | some u =>
        have hu : u ∈ t :: rest := List.mem_of_find?_eq_some hf
        have hlen : ((t :: rest).erase u).length = (t :: rest).length - 1 :=
          List.length_erase_of_mem hu
        have hpos : 0 < (t :: rest).length := List.length_pos.mpr (List.cons_ne_nil t rest)
        have hrec := ih (u.id :: done) ((t :: rest).erase u) (by omega)
        simp only [resolveAux, hf, List.length_cons]
        rw [hrec, hlen]
        simp only [List.length_cons]
        omega
      | none =>
        have hrec := ih (t.id :: done) rest (by
          simp only [List.length_cons] at h
          omega)
        simp only [resolveAux, hf, List.length_cons, hrec]

/-- The resolver's output is a topological order: every emitted task's
retained dependencies refer to ids emitted before it (or in `done`). -/
lemma resolveAux_topo :
    ∀ (fuel : Nat) (done : List Nat) (pending : List Task),
      topoFrom done (resolveAux fuel done pending) := by
  intro fuel
  induction fuel with
  | zero =>
    intro done pending
    cases pending <;> trivial
  | succ n ih =>
    intro done pending
    cases pending with
    | nil => trivial
    | cons t rest =>
      cases hf : (t :: rest).find? (fun u => u.dependsOn.all fun d => d ∈ done) with
      | some u =>
        have hp := List.find?_some hf
        simp only [resolveAux, hf]
        refine ⟨?_, ih (u.id :: done) ((t :: rest).erase u)⟩
        intro d hd
        have := List.all_eq_true.mp hp d hd
        exact of_decide_eq_true this
      | none =>
        simp only [resolveAux, hf]
        refine ⟨?_, ih (t.id :: done) rest⟩
        intro d hd
        have := (List.mem_filter.mp hd).2
        exact of_decide_eq_true this

/-- The resolver permutes the tasks (identified by everything except their
severable dependency edges): no task is lost and none is invented. -/
lemma resolveAux_perm :
    ∀ (fuel : Nat) (done : List Nat) (pending : List Task),
      pending.length ≤ fuel →
      ((resolveAux fuel done pending).map core).Perm (pending.map core) := by
  intro fuel
  induction fuel with
  | zero =>
    intro done pending h
    rw [List.length_eq_zero.mp (Nat.le_zero.mp h)]
    rfl
  | succ n ih =>
    intro done pending h
    cases pending with
    | nil => rfl
    | cons t rest =>
      cases hf : (t :: rest).find? (fun u => u.dependsOn.all fun d => d ∈ done) with
      | some u =>
        have hu : u ∈ t :: rest := List.mem_of_find?_eq_some hf
        have hlen : ((t :: rest).erase u).length = (t :: rest).length - 1 :=
          List.length_erase_of_mem hu
        have hpos : 0 < (t :: rest).length := List.length_pos.mpr (List.cons_ne_nil t rest)
        have hrec := ih (u.id :: done) ((t :: rest).erase u) (by omega)
        have hperm : ((t :: rest).map core).Perm
            (core u :: ((t :: rest).erase u).map core) := by
          simpa using (List.perm_cons_erase hu).map core
        simp only [resolveAux, hf, List.map_cons]
        exact (hrec.cons (core u)).trans hperm.symm
      | none =>
        have hrec := ih (t.id :: done) rest (by
          simp only [List.length_cons] at h
          omega)
        simp only [resolveAux, hf, List.map_cons]
        exact hrec.cons (core t)

lemma resolve_length (tasks : List Task) : (resolve tasks).length = tasks.length :=
  resolveAux_length tasks.length [] tasks (le_refl _)

lemma resolve_topo (tasks : List Task) : topoFrom [] (resolve tasks) :=
  resolveAux_topo tasks.length [] tasks

lemma resolve_perm (tasks : List Task) :
    ((resolve tasks).map core).Perm (tasks.map core) :=
  resolveAux_perm tasks.length [] tasks (le_refl _)

end Engine

namespace Engine

/-- The scheduler emits exactly one scheduled task per input task. -/
lemma scheduleAux_length (s : Int) :
    ∀ (l : List Task) (sch : List SchedTask),
      (scheduleAux s sch l).length = l.length := by
  intro l
  induction l with
  | nil => intro sch; rfl
  | cons t rest ih =>
    intro sch
    simp only [scheduleAux, List.length_cons, ih]

/-- Every scheduled task satisfies `endDate = startDate + durationDays` and
starts no earlier than the project start date. -/
lemma scheduleAux_mem (s : Int) :
    ∀ (l : List Task) (sch : List SchedTask) (x : SchedTask),
      x ∈ scheduleAux s sch l →
        x.endDate = x.startDate + (x.durationDays : Int) ∧ s ≤ x.startDate := by
  intro l
  induction l with
  | nil => intro sch x hx; exact absurd hx (List.not_mem_nil x)
  | cons t rest ih =>
    intro sch x hx
    simp only [scheduleAux] at hx
    rcases List.mem_cons.mp hx with rfl | hx'
    · exact ⟨rfl, base_le_foldl_max _ s⟩
    · exact ih _ x hx'

/-- The forward pass establishes the §4.3 schedule-consistency predicate:
provided every already-scheduled task ends no earlier than the project start,
each emitted task has `endDate = startDate + durationDays`, starts at the
project start when it has no dependencies, and otherwise starts at the
maximum end date among its prerequisites. -/
lemma scheduleAux_ok (s : Int) :
    ∀ (l : List Task) (sch : List SchedTask),
      (∀ x ∈ sch, s ≤ x.endDate) → schedOK s sch (scheduleAux s sch l) := by
  intro l
  induction l with
  | nil => intro sch _; trivial
  | cons t rest ih =>
    intro sch hinv
    simp only [scheduleAux]
    refine ⟨rfl, ?_, ?_, ?_⟩
    · intro hdep
      show schedStart s sch t = s
      unfold schedStart
      rw [show t.dependsOn = [] from hdep]
      rfl
    · intro hdep
      apply foldl_max_isMax
      · intro hmap
        exact hdep (List.map_eq_nil_iff.mp hmap)
      · intro y hy
        obtain ⟨d, _, rfl⟩ := List.mem_map.mp hy
        unfold depEnd
        cases hf : sch.find? (fun x => x.id = d) with
        | some x' => exact hinv x' (List.mem_of_find?_eq_some hf)
        | none => exact le_refl s
    · apply ih
      intro x hx
      rcases List.mem_append.mp hx with hx' | hx'
      · exact hinv x hx'
      · rw [List.mem_singleton] at hx'
        subst hx'
        show s ≤ schedStart s sch t + (t.durationDays : Int)
        have h1 : s ≤ schedStart s sch t := base_le_foldl_max _ s
        have h2 : (0 : Int) ≤ (t.durationDays : Int) := by
          exact_mod_cast Nat.zero_le t.durationDays
        omega

/-- The balancer emits exactly one task per input task. -/
lemma balanceAux_length (roster : List String) :
    ∀ (l : List SchedTask) (assigned : List String),
      (balanceAux roster assigned l).length = l.length := by
  intro l
  induction l with
  | nil => intro assigned; rfl
  | cons t rest ih =>
    intro assigned
    simp only [balanceAux, List.length_cons, ih]

/-- A left fold whose step always returns either the accumulator or the new
element stays inside any set containing the seed and the elements. -/
lemma foldl_choice_mem {α : Type} (roster : List α) (f : α → α → α)
    (hf : ∀ a m, f a m = a ∨ f a m = m) :
    ∀ (l : List α) (acc : α), acc ∈ roster → (∀ m ∈ l, m ∈ roster) →
      l.foldl f acc ∈ roster := by
  intro l
  induction l with
  | nil => intro acc hacc _; exact hacc
  | cons a l ih =>
    intro acc hacc hl
    simp only [List.foldl_cons]
    rcases hf acc a with h | h
    · rw [h]
      exact ih acc hacc fun m hm => hl m (List.mem_cons_of_mem _ hm)
    · rw [h]
      exact ih a (hl a (List.mem_cons_self _ _)) fun m hm =>
        hl m (List.mem_cons_of_mem _ hm)

/-- The least-loaded choice is always a roster member when the roster is
non-empty. -/
lemma pickLeast_mem (roster assigned : List String) (hne : roster ≠ []) :
    pickLeast roster assigned ∈ roster := by
  cases roster with
  | nil => exact absurd rfl hne
  | cons r0 rs =>
    show (r0 :: rs).foldl
        (fun best m => if assigned.count m < assigned.count best then m else best)
        r0 ∈ r0 :: rs
    apply foldl_choice_mem (r0 :: rs) _ ?_ (r0 :: rs) r0 (List.mem_cons_self _ _)
      fun m hm => hm
    intro a m
    by_cases h : assigned.count m < assigned.count a
    · exact Or.inr (if_pos h)
    · exact Or.inl (if_neg h)

/-- Every balanced task keeps its dates and duration, and its final assignee
is a roster member whenever the roster is non-empty. -/
lemma balanceAux_mem (roster : List String) :
    ∀ (l : List SchedTask) (assigned : List String) (y : SchedTask),
      y ∈ balanceAux roster assigned l →
      ∃ x ∈ l, y.startDate = x.startDate ∧ y.endDate = x.endDate ∧
        y.durationDays = x.durationDays ∧ (roster ≠ [] → y.assignee ∈ roster) := by
  intro l
  induction l with
  | nil => intro assigned y hy; exact absurd hy (List.not_mem_nil y)
  | cons t rest ih =>
    intro assigned y hy
    simp only [balanceAux] at hy
    rcases List.mem_cons.mp hy with rfl | hy'
    · refine ⟨t, List.mem_cons_self _ _, rfl, rfl, rfl, ?_⟩
      intro hne
      show (if t.assignee ∈ roster then t.assignee else pickLeast roster assigned) ∈ roster
      by_cases h : t.assignee ∈ roster
      · rw [if_pos h]
        exact h
      · rw [if_neg h]
        exact pickLeast_mem roster assigned hne
    · obtain ⟨x, hx, hrest⟩ := ih _ y hy'
      exact ⟨x, List.mem_cons_of_mem _ hx, hrest⟩

/-- The fallback template always has five phases. -/
lemma fallback_length (d : Nat) : (fallbackTasks d).length = 5 := by
  simp [fallbackTasks]

/-- The tasks entering the resolver are never empty: either the normalized
list is non-empty, or the five-phase fallback template is used. -/
lemma baseTasks_pos (req : PlanRequest) : 0 < (baseTasks req).length := by
  simp only [baseTasks]
  set norm := (match req.rawTasks with
    | some raw => normalize raw
    | none => []) with hn
  by_cases h : norm.isEmpty = true
  · rw [if_pos h, fallback_length]
    omega
  · rw [if_neg h]
    have hne : norm ≠ [] := by
      intro hh
      rw [hh] at h
      exact h rfl
    exact List.length_pos.mpr hne

end Engine

namespace Engine

/-- **C7.** After resolution the dependency graph is acyclic: the resolver's
output is a topological order (every task's retained dependencies point to
earlier tasks), no task is dropped or invented (the output is a permutation
of the input on everything but the severable dependency edges), and on the
3-task cycle A→B→C→A of Scenario 3 all three tasks still appear, exactly the
one back-edge is severed, and no exception surfaces (the resolver is a total
function). -/
theorem c7_cycle_resolution (tasks : List Task) :
    (resolve tasks).length = tasks.length ∧
    topoFrom [] (resolve tasks) ∧
    ((resolve tasks).map core).Perm (tasks.map core) ∧
    ((resolve cycleTasks).map fun t => (t.id, t.name)) =
      [(1, "A"), (2, "B"), (3, "C")] ∧
    ((resolve cycleTasks).map fun t => t.dependsOn) = [[], [1], [2]] :=
  ⟨resolve_length tasks, resolve_topo tasks, resolve_perm tasks,
    by decide, by decide⟩

theorem c7_cycle_resolution_witness :
    (resolve cycleTasks).length = cycleTasks.length ∧
    topoFrom [] (resolve cycleTasks) :=
  ⟨(c7_cycle_resolution cycleTasks).1, (c7_cycle_resolution cycleTasks).2.1⟩

/-- **C2.** The date scheduler is consistent: every scheduled task has
`endDate = startDate + durationDays`; a task with no dependencies starts at
the project start date; a task with dependencies starts at the maximum end
date among its prerequisites.  On Scenario 1 (Design 5 days, Build 10 days
depending on Design, start date day 0 = 2024-01-01) Design spans days 0–5,
Build spans days 5–15 and the total span is 15 days; a 1-day task starting
day 0 ends day 1 (non-inclusive end). -/
theorem c2_date_scheduler (s : Int) (tasks : List Task) :
    schedOK s [] (schedule s tasks) ∧
    ((schedule 0 (resolve designBuild)).map fun x => (x.name, x.startDate, x.endDate)) =
      [("Design", 0, 5), ("Build", 5, 15)] ∧
    planSpan 0 (schedule 0 (resolve designBuild)) = 15 ∧
    ((schedule 0 oneDayTask).map fun x => (x.startDate, x.endDate)) = [(0, 1)] :=
  ⟨scheduleAux_ok s tasks [] (fun x hx => absurd hx (List.not_mem_nil x)),
    by decide, by decide, by decide⟩

theorem c2_date_scheduler_witness :
    schedOK 0 [] (schedule 0 (resolve designBuild)) ∧
    planSpan 0 (schedule 0 (resolve designBuild)) = 15 :=
  ⟨(c2_date_scheduler 0 (resolve designBuild)).1,
    (c2_date_scheduler 0 (resolve designBuild)).2.2.1⟩

/-- **C1.** Plan generation is total and structurally valid for every input:
whatever the request (a failed or absent upstream response, an empty or
malformed raw task list, cyclic dependencies), the returned plan has a
non-empty task list and a non-empty team, and every task satisfies
`endDate = startDate + durationDays`, starts no earlier than the plan's
start date, ends no later than the plan's end date, and has an assignee
listed in `teamMembers` (drawn from the caller's roster whenever one was
provided). -/
theorem c1_generate_plan_total_valid (req : PlanRequest) :
    (generatePlan req).tasks ≠ [] ∧
    (generatePlan req).teamMembers ≠ [] ∧
    ∀ x ∈ (generatePlan req).tasks,
      x.endDate = x.startDate + (x.durationDays : Int) ∧
      (generatePlan req).startDate ≤ x.startDate ∧
      x.endDate ≤ (generatePlan req).endDate ∧
      x.assignee ∈ (generatePlan req).teamMembers ∧
      (req.roster ≠ [] → x.assignee ∈ req.roster) := by
  set s := req.startDate with hs
  set sched := schedule s (resolve (baseTasks req)) with hsched
  set effR := if req.roster.isEmpty then synthRoster sched else req.roster with heff
  set final := balanceAux effR [] sched with hfin
  have hplan : generatePlan req = assemble req.projectName s final := rfl
  rw [hplan]
  have htasks : (assemble req.projectName s final).tasks = final := rfl
  have hteam : (assemble req.projectName s final).teamMembers =
      (final.map fun x => x.assignee).dedup := rfl
  have hstart : (assemble req.projectName s final).startDate = s := rfl
  have hend : (assemble req.projectName s final).endDate =
      s + planSpan s final := rfl
  rw [htasks, hteam, hstart, hend]
  have hflen : final.length = (baseTasks req).length := by
    rw [hfin, balanceAux_length, hsched]
    show (scheduleAux s [] (resolve (baseTasks req))).length = _
    rw [scheduleAux_length, resolve_length]
  have hfpos : 0 < final.length := by
    rw [hflen]
    exact baseTasks_pos req
  have hfne : final ≠ [] := List.length_pos.mp hfpos
  refine ⟨hfne, ?_, ?_⟩
  · obtain ⟨y, hy⟩ := List.exists_mem_of_ne_nil final hfne
    exact List.ne_nil_of_mem (List.mem_dedup.mpr (List.mem_map_of_mem _ hy))
  · intro x hx
    have hxf : x ∈ final := hx
    rw [hfin] at hx
    obtain ⟨x0, hx0, he1, he2, he3, hroster⟩ := balanceAux_mem effR sched [] x hx
    rw [hsched] at hx0
    obtain ⟨hx0e, hx0s⟩ :=
      scheduleAux_mem s (resolve (baseTasks req)) [] x0 hx0
    refine ⟨?_, ?_, ?_, ?_, ?_⟩
    · rw [he2, he1, he3]
      exact hx0e
    · rw [he1]
      exact hx0s
    · have hin : x.endDate ∈ final.map fun z => z.endDate :=
        List.mem_map_of_mem _ hxf
      have hle := le_foldl_max (final.map fun z => z.endDate) s _ hin
      unfold planSpan
      omega
    · exact List.mem_dedup.mpr (List.mem_map_of_mem _ hxf)
    · intro hrne
      have hre : req.roster.isEmpty = false :=
        Bool.eq_false_iff.mpr fun h => hrne (List.isEmpty_iff.mp h)
      have heffR : effR = req.roster := by
        rw [heff, hre]
        rfl
      rw [← heffR]
      exact hroster (by rw [heffR]; exact hrne)

theorem c1_generate_plan_total_valid_witness :
    (generatePlan degradedRequest).tasks ≠ [] ∧
    fallbackFirstTask.endDate =
      fallbackFirstTask.startDate + (fallbackFirstTask.durationDays : Int) ∧
    fallbackFirstTask.assignee ∈ (generatePlan degradedRequest).teamMembers := by
  have h := c1_generate_plan_total_valid degradedRequest
  have hx : fallbackFirstTask ∈ (generatePlan degradedRequest).tasks := by decide
  have h2 := h.2.2 fallbackFirstTask hx
  exact ⟨h.1, h2.1, h2.2.2.2.1⟩

end Engine
